import Mathlib

/-!
Verification of the simulation-driver core of the nestmc-proto repository:
spike exchange, event-queue construction (`communicator::make_event_queues`),
event-lane merging (`model::merge_events`), domain decomposition
(`partition_load_balance`), the dry-run transport (`gather_spikes`), and the
spike counter (`communicator::num_spikes`).

Times, delays and weights are modelled as exact rationals; the C++ code uses
floating point (`time_type = float`), so all arithmetic statements here are
about the exact-arithmetic denotation of the code.
-/

namespace NestMC

/-- Modelled from the spec: `cell_member_type` (common_types.hpp is not in the
source tree). An endpoint is a pair (GID, LID):
"Endpoint = (GID, LID), totally ordered lexicographically". -/
structure cell_member where
  gid : Nat
  index : Nat
deriving DecidableEq, Repr

/-- Lexicographic strict order on endpoints, the order used to sort spikes and
connections by source. -/
def cm_lt (a b : cell_member) : Prop :=
  a.gid < b.gid ∨ (a.gid = b.gid ∧ a.index < b.index)

/-- Non-strict lexicographic order on endpoints. -/
def cm_le (a b : cell_member) : Prop :=
  cm_lt a b ∨ a = b

instance : DecidableRel cm_lt := fun a b => by
  unfold cm_lt; infer_instance

instance : DecidableRel cm_le := fun a b => by
  unfold cm_le; infer_instance

/-- Modelled from the spec: `spike` (spike.hpp is not in the source tree).
"Spike: (source endpoint, time)." -/
structure spike where
  source : cell_member
  time : ℚ
deriving DecidableEq, Repr

/-- Modelled from the spec: `postsynaptic_spike_event` as used by the driver
(the definition in the tree, morph/embed_pwlin.hpp, carries
target : cell_member_type, time, weight, compared lexicographically by
(time, target, weight)). -/
structure postsynaptic_spike_event where
  target : cell_member
  time : ℚ
  weight : ℚ
deriving DecidableEq, Repr

/-- Strict order on events used by the spec sentence "sorted by (time, target,
weight)": the `operator<` of `postsynaptic_spike_event`. -/
def pse_lt (a b : postsynaptic_spike_event) : Prop :=
  a.time < b.time ∨
    (a.time = b.time ∧ (cm_lt a.target b.target ∨
      (a.target = b.target ∧ a.weight < b.weight)))

instance : DecidableRel pse_lt := fun a b => by
  unfold pse_lt; infer_instance

/-- Modelled from the spec: `connection` (connection.hpp is not in the source
tree). "Connection: immutable 5-tuple (source endpoint, destination endpoint,
weight, delay > 0, destination group index). Ordered primarily by source
endpoint." The communicator constructs them as
{c.source, c.dest, c.weight, c.delay, cell.local_group}. -/
structure connection where
  source : cell_member
  dest : cell_member
  weight : ℚ
  delay : ℚ
  group_index : Nat
deriving DecidableEq, Repr

/-- Modelled from the spec: `connection::make_event` (connection.hpp is not in
the source tree). "Event: (destination LID, time, weight). Derived from a spike
and a connection as (connection.destination.LID, spike.time + connection.delay,
connection.weight)"; the event target field carries the destination endpoint. -/
def connection.make_event (c : connection) (s : spike) : postsynaptic_spike_event :=
  ⟨c.dest, s.time + c.delay, c.weight⟩

/-- Modelled from the spec: `epoch` (the epoch header is not in the source
tree). "Epoch: (id ≥ 0, t_begin, t_end). Non-overlapping, contiguous in time."
In model.cpp the epoch is advanced by `epoch_.advance(tuntil)` and its end is
read as `epoch_.tfinal`. -/
structure epoch where
  id : Nat
  t_begin : ℚ
  t_end : ℚ
deriving DecidableEq, Repr

/-- Non-strict version of `pse_lt`: the total order (time, target, weight). -/
def pse_le (a b : postsynaptic_spike_event) : Prop :=
  pse_lt a b ∨ a = b

instance : DecidableRel pse_le := fun a b => by
  unfold pse_le; infer_instance

/-- Comparison by time only: the projection used by `util::sort_by(events,
event_time)` and by the `std::merge` comparator `l.time < r.time` in
`model::merge_events`. -/
def pse_time_le (a b : postsynaptic_spike_event) : Prop :=
  a.time ≤ b.time

instance : DecidableRel pse_time_le := fun a b => by
  unfold pse_time_le; infer_instance

instance : IsTotal postsynaptic_spike_event pse_time_le :=
  ⟨fun a b => le_total a.time b.time⟩

instance : IsTrans postsynaptic_spike_event pse_time_le :=
  ⟨fun _ _ _ hab hbc => le_trans hab hbc⟩

/-- STEP 1 of `model::merge_events`: `util::sort_by(events, event_time)`, i.e.
`std::sort` with comparator `event_time(a) < event_time(b)`. `std::sort`
guarantees only some time-sorted permutation (ties in unspecified order); we
model it by insertion sort, one such permutation. No theorem below depends on
the tie order produced by this sort. -/
def sort_by_time (events : List postsynaptic_spike_event) :
    List postsynaptic_spike_event :=
  List.insertionSort pse_time_le events

/-- The `std::lower_bound(lc.begin(), lc.end(), epoch_.tfinal,
event_time_less())` step of `model::merge_events`: on a time-sorted lane it
points at the first event with time ≥ t_end, so the kept range
[pos, lc.end()) is the suffix after dropping the prefix of events with
time < t_end. -/
def lane_suffix (lc : List postsynaptic_spike_event) (t_end : ℚ) :
    List postsynaptic_spike_event :=
  lc.dropWhile (fun e => decide (e.time < t_end))

/-- Worker for `merge_by_time`, structurally recursive on a fuel argument so
that it evaluates by kernel reduction; `merge_by_time` always supplies enough
fuel, so the fuel-exhausted branch is never reached. -/
def merge_go (n : Nat) (xs ys : List postsynaptic_spike_event) :
    List postsynaptic_spike_event :=
  match n, xs, ys with
  | 0, xs, ys => xs ++ ys
  | _+1, [], ys => ys
  | _+1, x :: xs, [] => x :: xs
  | n+1, x :: xs, y :: ys =>
    if y.time < x.time then y :: merge_go n (x :: xs) ys
    else x :: merge_go n xs (y :: ys)

/-- `std::merge(events, pos..lc.end(), lf, [](l,r){return l.time<r.time;})`:
stable two-way merge; on a tie the element from the first range (the freshly
sorted new events) is taken first. -/
def merge_by_time (xs ys : List postsynaptic_spike_event) :
    List postsynaptic_spike_event :=
  merge_go (xs.length + ys.length) xs ys

/-- `model::merge_events` for one lane: sort the new `events` by time, drop
the prefix of the current lane `lc` before `epoch_.tfinal` (= t_end), and
merge the rest by time into the next-epoch lane. -/
def merge_events (events lc : List postsynaptic_spike_event) (t_end : ℚ) :
    List postsynaptic_spike_event :=
  merge_by_time (sort_by_time events) (lane_suffix lc t_end)

/-- Connections are "sorted and partitioned by source rank; within a
source-rank partition sorted by source endpoint": the order used by
`util::sort` on each connection partition. -/
def conn_src_le (a b : connection) : Prop := cm_le a.source b.source

/-- Spike order by source endpoint: `util::sort_by(local_spikes,
[](spike s){return s.source;})` in `communicator::exchange`. -/
def spike_src_le (a b : spike) : Prop := cm_le a.source b.source

instance : DecidableRel conn_src_le := fun a b => by
  unfold conn_src_le; infer_instance

instance : DecidableRel spike_src_le := fun a b => by
  unfold spike_src_le; infer_instance

/-- The branch of `communicator::make_event_queues` taken when
`cons.size() < spks.size()`: iterate connections; for each, take
`std::equal_range(sp, spks.end(), cn->source(), spike_pred())` over the spike
window (on a source-sorted window this is: drop the spikes with source below
the connection's source, then take those with equal source), push one event
per spike in the range to `queues[cn->group_index()]`, and continue with the
window advanced to `sources.first`. The loop stops when either range is
exhausted. -/
def enqueue_by_conn :
    List connection → List spike → List (Nat × postsynaptic_spike_event)
  | [], _ => []
  | _ :: _, [] => []
  | c :: cs, s :: ss =>
    (((s :: ss).dropWhile (fun s2 => decide (cm_lt s2.source c.source))).takeWhile
        (fun s2 => decide (s2.source = c.source))).map
      (fun s2 => (c.group_index, c.make_event s2))
      ++ enqueue_by_conn cs
          ((s :: ss).dropWhile (fun s2 => decide (cm_lt s2.source c.source)))

/-- The other branch of `communicator::make_event_queues` (taken when
`cons.size() >= spks.size()`): iterate spikes; for each, take
`std::equal_range(cn, cons.end(), sp->source)` over the connection window,
push one event per connection in the range to `queues[c.group_index()]`, and
continue with the window advanced to `targets.first`. -/
def enqueue_by_spike :
    List connection → List spike → List (Nat × postsynaptic_spike_event)
  | [], _ => []
  | _ :: _, [] => []
  | c :: cs, s :: ss =>
    (((c :: cs).dropWhile (fun c2 => decide (cm_lt c2.source s.source))).takeWhile
        (fun c2 => decide (c2.source = s.source))).map
      (fun c2 => (c2.group_index, c2.make_event s))
      ++ enqueue_by_spike
          ((c :: cs).dropWhile (fun c2 => decide (cm_lt c2.source s.source))) ss

/-- Specification enumeration of the (group, event) pushes by connection:
for each connection c in order, one event per spike s with
s.source = c.source, in spike order. -/
def event_pairs (cons : List connection) (spks : List spike) :
    List (Nat × postsynaptic_spike_event) :=
  cons.flatMap (fun c =>
    (spks.filter (fun s => decide (s.source = c.source))).map
      (fun s => (c.group_index, c.make_event s)))

/-- Specification enumeration of the (group, event) pushes by spike:
for each spike s in order, one event per connection c with
c.source = s.source, in connection order. -/
def event_pairs_by_spike (cons : List connection) (spks : List spike) :
    List (Nat × postsynaptic_spike_event) :=
  spks.flatMap (fun s =>
    (cons.filter (fun c => decide (c.source = s.source))).map
      (fun c => (c.group_index, c.make_event s)))

/-- `gathered_vector<spike>`: the values of the all-gather together with the
source-rank partition (one offset per rank, plus the total). -/
structure gathered_vector where
  values : List spike
  partition : List Nat
deriving DecidableEq, Repr

/-- `util::subrange_view(l, a, b)`: the half-open index range [a, b) of l. -/
def subrange {α : Type} (l : List α) (a b : Nat) : List α :=
  (l.take b).drop a

/-- `subrange_view(connections_, cp[dom], cp[dom+1])`: the connection
partition of one source domain. -/
def conn_slice (conns : List connection) (cp : List Nat) (dom : Nat) :
    List connection :=
  subrange conns (cp.getD dom 0) (cp.getD (dom+1) 0)

/-- `subrange_view(global_spikes.values(), sp[dom], sp[dom+1])`: the spike
slice of one source domain. -/
def spike_slice (gs : gathered_vector) (dom : Nat) : List spike :=
  subrange gs.values (gs.partition.getD dom 0) (gs.partition.getD (dom+1) 0)

/-- One iteration of the domain loop of `make_event_queues`: the smaller-side
merge direction is chosen by `cons.size() < spks.size()`. -/
def domain_pushes (conns : List connection) (cp : List Nat)
    (gs : gathered_vector) (dom : Nat) :
    List (Nat × postsynaptic_spike_event) :=
  if (conn_slice conns cp dom).length < (spike_slice gs dom).length
  then enqueue_by_conn (conn_slice conns cp dom) (spike_slice gs dom)
  else enqueue_by_spike (conn_slice conns cp dom) (spike_slice gs dom)

/-- The contents of `queues[g]` given the chronological list of
(group, event) pushes: exactly the pushes whose group index is g, in push
order. -/
def group_filter (g : Nat) (pushes : List (Nat × postsynaptic_spike_event)) :
    List postsynaptic_spike_event :=
  pushes.filterMap (fun p => if p.1 = g then some p.2 else none)

/-- `communicator::make_event_queues(global_spikes)`: one queue per local
cell group; the domain loop runs over `make_span(0, num_domains_)` and each
push goes to `queues[group_index]`. -/
def make_event_queues (num_local_groups num_domains : Nat)
    (conns : List connection) (cp : List Nat) (gs : gathered_vector) :
    List (List postsynaptic_spike_event) :=
  (List.range num_local_groups).map (fun g =>
    group_filter g ((List.range num_domains).flatMap (domain_pushes conns cp gs)))

/-- All (group, event) pairs over all domains: the reference enumeration that
C2 compares the queues against. -/
def all_event_pairs (num_domains : Nat) (conns : List connection)
    (cp : List Nat) (gs : gathered_vector) :
    List (Nat × postsynaptic_spike_event) :=
  (List.range num_domains).flatMap (fun dom =>
    event_pairs (conn_slice conns cp dom) (spike_slice gs dom))

/-- `dry_run_context_impl::gather_spikes` (arbor/communication/
dry_run_context.cpp): replicate the local spikes once per rank, shift the
source GIDs of block i by `num_cells_per_tile * i`, and return the partition
`[0, L, 2L, ..., N*L]`. -/
def gather_spikes (num_ranks num_cells_per_tile : Nat)
    (local_spikes : List spike) : gathered_vector :=
  { values := (List.range num_ranks).flatMap (fun i =>
      local_spikes.map (fun s =>
        { s with source := { s.source with
            gid := s.source.gid + num_cells_per_tile * i } })),
    partition := (List.range (num_ranks+1)).map
      (fun i => i * local_spikes.length) }

/-- `dryrun_global_policy::gather_spikes` (src/communication/
dryrun_global_policy.hpp): builds the replicated global spike list with the
source of block `rank` shifted by `rank * dryrun_num_local_cells`, but the
partition vector is value-initialized to `size()+1` zeros and never filled
before being returned. -/
def dryrun_policy_gather_spikes (comm_size num_local_cells : Nat)
    (local_spikes : List spike) : gathered_vector :=
  { values := (List.range comm_size).flatMap (fun rank =>
      local_spikes.map (fun s =>
        { s with source := { s.source with
            gid := s.source.gid + rank * num_local_cells } })),
    partition := List.replicate (comm_size+1) 0 }

/-- The block-size rule of `partition_load_balance`
(`dom_size` lambda): `B = num_global_cells / num_domains`,
`R = num_global_cells - num_domains * B`, and domain `dom` receives
`B + (dom < R)` cells. -/
def dom_size (num_global_cells num_domains : Nat) (dom : Nat) : Nat :=
  num_global_cells / num_domains +
    if dom < num_global_cells
        - num_domains * (num_global_cells / num_domains)
    then 1 else 0

/-- The prefix-sum partition built by `util::make_partition` over the
`dom_size` view: `gid_part N D d` is the first GID of domain d. -/
def gid_part (N D d : Nat) : Nat :=
  ((List.range d).map (dom_size N D)).sum

/-- `domain_decomposition::first_cell(dom)` of the older decomposition
(part_005): `(cell_gid_type)(num_global_cells_*(dom/(double)num_domains_))`;
in exact arithmetic the truncation of N*(dom/D) is ⌊N·dom/D⌋. -/
def first_cell (N D dom : Nat) : Nat :=
  N * dom / D

/-- The gap-junction kind check of `partition_load_balance`: for each super
cell (gap-junction connected component), read the kind of its first member
and throw `arbor_internal_error` if any member has a different kind. -/
def check_gj_kinds (super_cells : List (List Nat)) (kind_of : Nat → Nat) :
    Except String Unit :=
  if super_cells.any (fun cg =>
      cg.any (fun gid => decide (kind_of gid ≠ kind_of (cg.headD 0))))
  then Except.error
    "Cells of different kinds connected by gap_junctions: not allowed"
  else Except.ok ()

/-- `util::sort_by(local_spikes, [](spike s){return s.source;})` at the top
of `communicator::exchange`; modelled by insertion sort (one source-sorted
permutation, as for `sort_by_time`). -/
def sort_spikes (l : List spike) : List spike :=
  List.insertionSort spike_src_le l

/-- The spike tally of `communicator::exchange`:
`num_spikes_ += global_spikes.size()`. -/
def exchange_tally (num_spikes gathered_size : Nat) : Nat :=
  num_spikes + gathered_size

/-- `communicator::exchange`: sort the local spikes by source, gather them
through the transport, and add the gathered size to the spike counter.
Returns the gathered vector and the updated counter. -/
def communicator_exchange (gather : List spike → gathered_vector)
    (num_spikes : Nat) (local_spikes : List spike) :
    gathered_vector × Nat :=
  ((gather (sort_spikes local_spikes)),
    exchange_tally num_spikes (gather (sort_spikes local_spikes)).values.length)

/-- The spike counter over a whole run: one `communicator::exchange` per
epoch, starting from the construction / `reset()` value. -/
def run_exchanges (gather : List spike → gathered_vector) :
    Nat → List (List spike) → Nat
  | st, [] => st
  | st, l :: ls =>
      run_exchanges gather (communicator_exchange gather st l).2 ls

/-- `communicator::reset()`: `num_spikes_ = 0`. -/
def communicator_reset : Nat := 0

/-- `std::numeric_limits<float>::max()` (`time_type = float`), exactly:
(2 - 2^-23) * 2^127. -/
def time_max : ℚ := 2^128 - 2^104

/-- `communicator::min_delay()`: fold `min` over the local connection delays
starting from `numeric_limits<time_type>::max()`. The transport reduction
`comms_.min` is the identity on a single rank (in-process and dry-run
transports return the value unchanged), so this is the returned value. -/
def min_delay (conns : List connection) : ℚ :=
  conns.foldl (fun m c => min m c.delay) time_max

/-- The epoch loop of `model::run` starting at time t: while `t < t_final`,
run an epoch `[t, min (t + t_interval) t_final)` and advance. Returns the
list of epochs; the fuel argument only bounds the number of iterations (the
loop itself terminates since `t_interval > 0`). -/
def run_epochs : Nat → ℚ → ℚ → ℚ → List (ℚ × ℚ)
  | 0, _, _, _ => []
  | fuel+1, t, t_interval, t_final =>
    if t < t_final then
      (t, min (t + t_interval) t_final) ::
        run_epochs fuel (min (t + t_interval) t_final) t_interval t_final
    else []

theorem cm_lt_irrefl (a : cell_member) : ¬ cm_lt a a := by
  unfold cm_lt; simp

theorem cm_lt_trans {a b c : cell_member} (hab : cm_lt a b) (hbc : cm_lt b c) :
    cm_lt a c := by
  unfold cm_lt at *
  rcases hab with h1 | ⟨e1, h1⟩ <;> rcases hbc with h2 | ⟨e2, h2⟩
  · exact Or.inl (h1.trans h2)
  · exact Or.inl (e2 ▸ h1)
  · exact Or.inl (e1 ▸ h2)
  · exact Or.inr ⟨e1.trans e2, h1.trans h2⟩

theorem cm_trichotomy (a b : cell_member) :
    cm_lt a b ∨ a = b ∨ cm_lt b a := by
  unfold cm_lt
  rcases Nat.lt_trichotomy a.gid b.gid with h | h | h
  · exact Or.inl (Or.inl h)
  · rcases Nat.lt_trichotomy a.index b.index with h2 | h2 | h2
    · exact Or.inl (Or.inr ⟨h, h2⟩)
    · refine Or.inr (Or.inl ?_)
      cases a; cases b; simp_all
    · exact Or.inr (Or.inr (Or.inr ⟨h.symm, h2⟩))
  · exact Or.inr (Or.inr (Or.inl h))

theorem cm_le_total (a b : cell_member) : cm_le a b ∨ cm_le b a := by
  unfold cm_le
  rcases cm_trichotomy a b with h | h | h
  · exact Or.inl (Or.inl h)
  · exact Or.inl (Or.inr h)
  · exact Or.inr (Or.inl h)

theorem cm_eq_of_not_lt {a b : cell_member}
    (h1 : ¬ cm_lt a b) (h2 : ¬ cm_lt b a) : a = b := by
  rcases cm_trichotomy a b with h | h | h
  · exact absurd h h1
  · exact h
  · exact absurd h h2

theorem merge_go_mem (z : postsynaptic_spike_event) :
    ∀ n xs ys, z ∈ merge_go n xs ys ↔ z ∈ xs ∨ z ∈ ys := by
  intro n
  induction n with
  | zero => intro xs ys; simp [merge_go]
  | succ n ih =>
    intro xs ys
    match xs, ys with
    | [], ys => simp [merge_go]
    | x :: xs, [] => simp [merge_go]
    | x :: xs, y :: ys =>
      rw [merge_go]
      by_cases h : y.time < x.time
      · rw [if_pos h]
        simp only [List.mem_cons, ih]
        tauto
      · rw [if_neg h]
        simp only [List.mem_cons, ih]
        tauto

theorem merge_go_sorted :
    ∀ n xs ys, xs.length + ys.length ≤ n →
      List.Pairwise pse_time_le xs → List.Pairwise pse_time_le ys →
      List.Pairwise pse_time_le (merge_go n xs ys) := by
  intro n
  induction n with
  | zero =>
    intro xs ys hlen hxs hys
    have hx : xs = [] := List.length_eq_zero.mp (by omega)
    have hy : ys = [] := List.length_eq_zero.mp (by omega)
    subst hx; subst hy
    simp [merge_go]
  | succ n ih =>
    intro xs ys hlen hxs hys
    match xs, ys with
    | [], ys => simpa [merge_go] using hys
    | x :: xs, [] => simpa [merge_go] using hxs
    | x :: xs, y :: ys =>
      rw [merge_go]
      rcases List.pairwise_cons.mp hxs with ⟨hx, hxs2⟩
      rcases List.pairwise_cons.mp hys with ⟨hy, hys2⟩
      simp only [List.length_cons] at hlen
      by_cases h : y.time < x.time
      · rw [if_pos h]
        refine List.pairwise_cons.mpr ⟨?_, ih (x :: xs) ys (by simp; omega) hxs hys2⟩
        intro z hz
        rcases (merge_go_mem z n (x :: xs) ys).mp hz with hz1 | hz2
        · rcases List.mem_cons.mp hz1 with rfl | hz1
          · exact le_of_lt h
          · exact le_trans (le_of_lt h) (hx z hz1)
        · exact hy z hz2
      · rw [if_neg h]
        refine List.pairwise_cons.mpr ⟨?_, ih xs (y :: ys) (by simp; omega) hxs2 hys⟩
        intro z hz
        rcases (merge_go_mem z n xs (y :: ys)).mp hz with hz1 | hz2
        · exact hx z hz1
        · rcases List.mem_cons.mp hz2 with rfl | hz2
          · exact le_of_not_lt h
          · exact le_trans (le_of_not_lt h) (hy z hz2)

theorem merge_by_time_sorted
    (xs ys : List postsynaptic_spike_event)
    (hxs : List.Pairwise pse_time_le xs) (hys : List.Pairwise pse_time_le ys) :
    List.Pairwise pse_time_le (merge_by_time xs ys) :=
  merge_go_sorted _ xs ys (le_refl _) hxs hys

theorem merge_go_nil_left (n : Nat) (ys : List postsynaptic_spike_event) :
    merge_go n [] ys = ys := by
  cases n <;> simp [merge_go]

theorem lane_suffix_sorted (lc : List postsynaptic_spike_event) (t_end : ℚ)
    (h : List.Pairwise pse_time_le lc) :
    List.Pairwise pse_time_le (lane_suffix lc t_end) :=
  h.sublist (List.dropWhile_sublist _)

/-- C4 (amended) -- After a per-lane merge of new events into a time-sorted
lane, the next-epoch lane is sorted by time (the comparators in
`model::merge_events` compare time only; the tie order of the claim is
refuted by `merge_events_tie_not_target_sorted`). -/
theorem merge_events_time_sorted
    (events lc : List postsynaptic_spike_event) (t_end : ℚ)
    (hlc : List.Pairwise pse_time_le lc) :
    List.Pairwise pse_time_le (merge_events events lc t_end) :=
  merge_by_time_sorted _ _
    (List.sorted_insertionSort pse_time_le events)
    (lane_suffix_sorted lc t_end hlc)

/-- Witness for C4 (amended) at a concrete input. -/
theorem merge_events_time_sorted_witness :
    List.Pairwise pse_time_le [⟨⟨3,0⟩,1,0⟩] ∧
    List.Pairwise pse_time_le
      (merge_events [⟨⟨5,0⟩,2,0⟩, ⟨⟨4,0⟩,1,0⟩] [⟨⟨3,0⟩,1,0⟩] 1) :=
  ⟨by decide,
    merge_events_time_sorted [⟨⟨5,0⟩,2,0⟩, ⟨⟨4,0⟩,1,0⟩] [⟨⟨3,0⟩,1,0⟩] 1
      (by decide)⟩

/-- C4 (counterexample) -- The claim that the merged lane is sorted by the
total order (time, then target, then weight) fails: merging the new event
(target (5,0), time 1) into a lane holding (target (3,0), time 1) with
t_end = 0 yields the new event first, so two equal-time events are not
ordered by target. -/
theorem merge_events_tie_not_target_sorted :
    merge_events [⟨⟨5,0⟩,1,0⟩] [⟨⟨3,0⟩,1,0⟩] 0
      = [⟨⟨5,0⟩,1,0⟩, ⟨⟨3,0⟩,1,0⟩] ∧
    ¬ List.Pairwise pse_le (merge_events [⟨⟨5,0⟩,1,0⟩] [⟨⟨3,0⟩,1,0⟩] 0) := by
  constructor
  · decide
  · decide

theorem lane_suffix_eq_filter :
    ∀ (lc : List postsynaptic_spike_event) (t_end : ℚ),
      List.Pairwise pse_time_le lc →
      lane_suffix lc t_end = lc.filter (fun e => decide (t_end ≤ e.time)) := by
  intro lc t_end
  induction lc with
  | nil => intro _; rfl
  | cons e rest ih =>
    intro h
    rcases List.pairwise_cons.mp h with ⟨he, hrest⟩
    unfold lane_suffix at *
    by_cases hc : e.time < t_end
    · have hnle : ¬ t_end ≤ e.time := not_le.mpr hc
      rw [List.dropWhile_cons, List.filter_cons]
      rw [if_pos (by simpa using hc), if_neg (by simpa using hnle)]
      exact ih hrest
    · have hle : t_end ≤ e.time := not_lt.mp hc
      rw [List.dropWhile_cons, List.filter_cons]
      rw [if_neg (by simpa using hc), if_pos (by simpa using hle)]
      congr 1
      symm
      rw [List.filter_eq_self]
      intro z hz
      have hez : e.time ≤ z.time := he z hz
      simpa using le_trans hle hez

/-- C5 -- Merging an empty new-event list into a time-sorted lane for an epoch
ending at t_end leaves exactly the suffix of the lane whose events have
time ≥ t_end: the prefix with time < t_end is discarded and nothing else is
added, removed or reordered. -/
theorem merge_events_empty
    (lc : List postsynaptic_spike_event) (t_end : ℚ)
    (hlc : List.Pairwise pse_time_le lc) :
    merge_events [] lc t_end = lc.filter (fun e => decide (t_end ≤ e.time)) := by
  have h0 : sort_by_time [] = [] := rfl
  unfold merge_events
  rw [h0]
  unfold merge_by_time
  rw [merge_go_nil_left]
  exact lane_suffix_eq_filter lc t_end hlc

/-- Witness for C5 at a concrete input: a lane with one past and one future
event, epoch ending at 2. -/
theorem merge_events_empty_witness :
    List.Pairwise pse_time_le [⟨⟨0,0⟩,1,0⟩, ⟨⟨1,0⟩,3,0⟩] ∧
    merge_events [] [⟨⟨0,0⟩,1,0⟩, ⟨⟨1,0⟩,3,0⟩] 2
      = List.filter (fun e => decide ((2:ℚ) ≤ e.time))
          [⟨⟨0,0⟩,1,0⟩, ⟨⟨1,0⟩,3,0⟩] :=
  ⟨by decide,
    merge_events_empty [⟨⟨0,0⟩,1,0⟩, ⟨⟨1,0⟩,3,0⟩] 2 (by decide)⟩

theorem cm_le_refl (a : cell_member) : cm_le a a := Or.inr rfl

theorem cm_le_trans {a b c : cell_member} (hab : cm_le a b) (hbc : cm_le b c) :
    cm_le a c := by
  rcases hab with h1 | rfl
  · rcases hbc with h2 | rfl
    · exact Or.inl (cm_lt_trans h1 h2)
    · exact Or.inl h1
  · exact hbc

theorem cm_lt_of_lt_of_le {a b c : cell_member} (hab : cm_lt a b)
    (hbc : cm_le b c) : cm_lt a c := by
  rcases hbc with h2 | rfl
  · exact cm_lt_trans hab h2
  · exact hab

theorem cm_le_of_not_lt {a b : cell_member} (h : ¬ cm_lt a b) : cm_le b a := by
  rcases cm_trichotomy a b with h1 | h1 | h1
  · exact absurd h1 h
  · exact Or.inr h1.symm
  · exact Or.inl h1

/-- C1 -- For every connection c with delay ≥ min_delay, every spike s with
s.time ≥ epoch.t_begin, and every epoch of duration at most min_delay/2
(with t_begin ≤ t_end), the event derived from s via c satisfies
(c.make_event s).time ≥ epoch.t_end: no spike produced in an epoch is
delivered as an event inside that same epoch. -/
theorem no_intra_epoch_delivery
    (c : connection) (s : spike) (e : epoch) (min_delay : ℚ)
    (hdelay : min_delay ≤ c.delay)
    (hspike : e.t_begin ≤ s.time)
    (hdur : e.t_end - e.t_begin ≤ min_delay / 2)
    (hord : e.t_begin ≤ e.t_end) :
    e.t_end ≤ (c.make_event s).time := by
  unfold connection.make_event
  simp only
  nlinarith

/-- Witness for C1 at a concrete input: connection with delay 2, spike at
time 0, epoch [0, 1), min_delay 2. -/
theorem no_intra_epoch_delivery_witness :
    (2:ℚ) ≤ 2 ∧ (0:ℚ) ≤ 0 ∧ (1:ℚ) - 0 ≤ 2 / 2 ∧ (0:ℚ) ≤ 1 ∧
    (1:ℚ) ≤ ((connection.mk ⟨0,0⟩ ⟨1,0⟩ 1 2 0).make_event ⟨⟨0,0⟩, 0⟩).time :=
  ⟨le_refl _, le_refl _, by norm_num, by norm_num,
    no_intra_epoch_delivery (connection.mk ⟨0,0⟩ ⟨1,0⟩ 1 2 0) ⟨⟨0,0⟩, 0⟩
      ⟨0, 0, 1⟩ 2 (le_refl _) (le_refl _) (by norm_num) (by norm_num)⟩

theorem takeWhile_key_eq_filter {α : Type} (src : α → cell_member)
    (k : cell_member) :
    ∀ l : List α, List.Pairwise (fun a b => cm_le (src a) (src b)) l →
      (∀ z ∈ l, cm_le k (src z)) →
      l.takeWhile (fun x => decide (src x = k))
        = l.filter (fun x => decide (src x = k)) := by
  intro l
  induction l with
  | nil => intro _ _; rfl
  | cons x xs ih =>
    intro hsort hlb
    rcases List.pairwise_cons.mp hsort with ⟨hx, hxs⟩
    by_cases h : src x = k
    · rw [List.takeWhile_cons, List.filter_cons]
      rw [if_pos (by simpa using h), if_pos (by simpa using h)]
      congr 1
      exact ih hxs (fun z hz => h ▸ hx z hz)
    · rw [List.takeWhile_cons, List.filter_cons]
      rw [if_neg (by simpa using h), if_neg (by simpa using h)]
      have hkx : cm_lt k (src x) := by
        rcases hlb x (List.mem_cons_self x xs) with hlt | heq
        · exact hlt
        · exact absurd heq.symm h
      symm
      rw [List.filter_eq_nil_iff]
      intro z hz
      have hz2 : cm_lt k (src z) := cm_lt_of_lt_of_le hkx (hx z hz)
      simp only [decide_eq_true_eq]
      intro he
      exact cm_lt_irrefl k (he ▸ hz2)

theorem equal_range_eq_filter {α : Type} (src : α → cell_member)
    (k : cell_member) :
    ∀ l : List α, List.Pairwise (fun a b => cm_le (src a) (src b)) l →
      ((l.dropWhile (fun x => decide (cm_lt (src x) k))).takeWhile
          (fun x => decide (src x = k)))
        = l.filter (fun x => decide (src x = k)) := by
  intro l
  induction l with
  | nil => intro _; rfl
  | cons x xs ih =>
    intro hsort
    rcases List.pairwise_cons.mp hsort with ⟨hx, hxs⟩
    by_cases h : cm_lt (src x) k
    · rw [List.dropWhile_cons, List.filter_cons]
      rw [if_pos (by simpa using h)]
      have hne : ¬ (src x = k) := fun he => cm_lt_irrefl k (he ▸ h)
      rw [if_neg (by simpa using hne)]
      exact ih hxs
    · rw [List.dropWhile_cons]
      rw [if_neg (by simpa using h)]
      refine takeWhile_key_eq_filter src k (x :: xs) hsort ?_
      intro z hz
      rcases List.mem_cons.mp hz with rfl | hz
      · exact cm_le_of_not_lt h
      · exact cm_le_trans (cm_le_of_not_lt h) (hx z hz)

theorem filter_dropWhile_lt_eq {α : Type} (src : α → cell_member)
    (k k2 : cell_member) (hk : cm_le k k2) (l : List α) :
    (l.dropWhile (fun x => decide (cm_lt (src x) k))).filter
        (fun x => decide (src x = k2))
      = l.filter (fun x => decide (src x = k2)) := by
  conv_rhs =>
    rw [← List.takeWhile_append_dropWhile
      (p := fun x => decide (cm_lt (src x) k)) (l := l)]
  rw [List.filter_append]
  have h : (l.takeWhile (fun x => decide (cm_lt (src x) k))).filter
      (fun x => decide (src x = k2)) = [] := by
    rw [List.filter_eq_nil_iff]
    intro z hz
    have hz2 : cm_lt (src z) k := by simpa using List.mem_takeWhile_imp hz
    have hz3 : cm_lt (src z) k2 := cm_lt_of_lt_of_le hz2 hk
    simp only [decide_eq_true_eq]
    intro he
    exact cm_lt_irrefl k2 (he ▸ hz3)
  rw [h, List.nil_append]

theorem event_pairs_nil (cons : List connection) : event_pairs cons [] = [] := by
  unfold event_pairs
  induction cons with
  | nil => rfl
  | cons c cs ih => rw [List.flatMap_cons, ih]; rfl

theorem event_pairs_by_spike_nil (spks : List spike) :
    event_pairs_by_spike [] spks = [] := by
  unfold event_pairs_by_spike
  induction spks with
  | nil => rfl
  | cons s ss ih => rw [List.flatMap_cons, ih]; rfl

theorem event_pairs_cons (c : connection) (cs : List connection)
    (spks : List spike) :
    event_pairs (c :: cs) spks
      = (spks.filter (fun s => decide (s.source = c.source))).map
          (fun s => (c.group_index, c.make_event s))
        ++ event_pairs cs spks := by
  unfold event_pairs
  rw [List.flatMap_cons]

theorem event_pairs_by_spike_cons (cons : List connection) (s : spike)
    (ss : List spike) :
    event_pairs_by_spike cons (s :: ss)
      = (cons.filter (fun c => decide (c.source = s.source))).map
          (fun c => (c.group_index, c.make_event s))
        ++ event_pairs_by_spike cons ss := by
  unfold event_pairs_by_spike
  rw [List.flatMap_cons]

theorem event_pairs_dropWhile (c : connection) (cs : List connection)
    (spks : List spike) (h : ∀ c2 ∈ cs, cm_le c.source c2.source) :
    event_pairs cs
        (spks.dropWhile (fun s2 => decide (cm_lt s2.source c.source)))
      = event_pairs cs spks := by
  unfold event_pairs
  apply List.flatMap_congr
  intro c2 hc2
  rw [filter_dropWhile_lt_eq (fun sp : spike => sp.source) c.source c2.source
    (h c2 hc2) spks]

theorem event_pairs_by_spike_dropWhile (s : spike) (ss : List spike)
    (cons : List connection) (h : ∀ s2 ∈ ss, cm_le s.source s2.source) :
    event_pairs_by_spike
        (cons.dropWhile (fun c2 => decide (cm_lt c2.source s.source))) ss
      = event_pairs_by_spike cons ss := by
  unfold event_pairs_by_spike
  apply List.flatMap_congr
  intro s2 hs2
  rw [filter_dropWhile_lt_eq (fun c : connection => c.source) s.source s2.source
    (h s2 hs2) cons]

/-- The connection-iterating branch of `make_event_queues` produces, on
source-sorted inputs, exactly one push per matching (connection, spike) pair,
grouped by connection. -/
theorem enqueue_by_conn_eq :
    ∀ (cons : List connection) (spks : List spike),
      List.Pairwise conn_src_le cons → List.Pairwise spike_src_le spks →
      enqueue_by_conn cons spks = event_pairs cons spks := by
  intro cons
  induction cons with
  | nil => intro spks _ _; rfl
  | cons c cs ih =>
    intro spks hc hs
    rcases List.pairwise_cons.mp hc with ⟨hch, hct⟩
    match spks with
    | [] =>
      rw [event_pairs_nil]
      rfl
    | s :: ss =>
      rw [enqueue_by_conn]
      rw [equal_range_eq_filter (fun sp : spike => sp.source) c.source (s :: ss) hs]
      rw [ih _ hct (hs.sublist (List.dropWhile_sublist _))]
      rw [event_pairs_dropWhile c cs (s :: ss) hch]
      rw [event_pairs_cons]

/-- The spike-iterating branch of `make_event_queues` produces, on
source-sorted inputs, exactly one push per matching (connection, spike) pair,
grouped by spike. -/
theorem enqueue_by_spike_eq :
    ∀ (spks : List spike) (cons : List connection),
      List.Pairwise conn_src_le cons → List.Pairwise spike_src_le spks →
      enqueue_by_spike cons spks = event_pairs_by_spike cons spks := by
  intro spks
  induction spks with
  | nil =>
    intro cons _ _
    match cons with
    | [] => rfl
    | _ :: _ => rfl
  | cons s ss ih =>
    intro cons hc hs
    rcases List.pairwise_cons.mp hs with ⟨hsh, hst⟩
    match cons with
    | [] =>
      rw [event_pairs_by_spike_nil]
      rfl
    | c :: cs =>
      rw [enqueue_by_spike]
      rw [equal_range_eq_filter (fun c2 : connection => c2.source) s.source
        (c :: cs) hc]
      rw [ih _ (hc.sublist (List.dropWhile_sublist _)) hst]
      rw [event_pairs_by_spike_dropWhile s ss (c :: cs) hsh]
      rw [event_pairs_by_spike_cons]

theorem flatMap_append_perm {α β : Type} (l : List α) (f g : α → List β) :
    List.Perm (l.flatMap (fun x => f x ++ g x)) (l.flatMap f ++ l.flatMap g) := by
  induction l with
  | nil => simp
  | cons a l ih =>
    simp only [List.flatMap_cons]
    rw [List.append_assoc, List.append_assoc]
    exact List.Perm.append_left (f a)
      (List.Perm.trans (ih.append_left _)
        (List.perm_append_comm_assoc _ _ _))

theorem flatMap_ite_singleton {α β : Type} (p : α → Prop) [DecidablePred p]
    (f : α → β) :
    ∀ l : List α,
      l.flatMap (fun x => if p x then [f x] else [])
        = (l.filter (fun x => decide (p x))).map f := by
  intro l
  induction l with
  | nil => rfl
  | cons a l ih =>
    rw [List.flatMap_cons, List.filter_cons]
    by_cases h : p a
    · rw [if_pos h, if_pos (by simpa using h), List.map_cons, ← ih]
      rfl
    · rw [if_neg h, if_neg (by simpa using h), ← ih]
      rfl

theorem flatMap_perm_congr {α β : Type} (l : List α) (f g : α → List β)
    (h : ∀ x ∈ l, List.Perm (f x) (g x)) : List.Perm (l.flatMap f) (l.flatMap g) := by
  induction l with
  | nil => exact List.Perm.refl _
  | cons a l ih =>
    simp only [List.flatMap_cons]
    exact (h a (List.mem_cons_self a l)).append
      (ih (fun x hx => h x (List.mem_cons_of_mem a hx)))

/-- The two specification enumerations (grouped by connection / grouped by
spike) are permutations of each other: both enumerate every matching
(connection, spike) pair exactly once. -/
theorem event_pairs_exchange :
    ∀ (cons : List connection) (spks : List spike),
      List.Perm (event_pairs cons spks) (event_pairs_by_spike cons spks) := by
  intro cons
  induction cons with
  | nil =>
    intro spks
    rw [event_pairs_by_spike_nil]
    exact List.Perm.refl _
  | cons c cs ih =>
    intro spks
    have step1 : event_pairs_by_spike (c :: cs) spks
        = spks.flatMap (fun s =>
            (if c.source = s.source
              then [(c.group_index, c.make_event s)] else [])
            ++ ((cs.filter (fun c2 => decide (c2.source = s.source))).map
                  (fun c2 => (c2.group_index, c2.make_event s)))) := by
      unfold event_pairs_by_spike
      apply List.flatMap_congr
      intro s _
      rw [List.filter_cons]
      by_cases h : c.source = s.source
      · rw [if_pos (by simpa using h), if_pos h]
        rfl
      · rw [if_neg (by simpa using h), if_neg h]
        rfl
    rw [event_pairs_cons, step1]
    refine List.Perm.trans ?_ (flatMap_append_perm spks _ _).symm
    refine List.Perm.append ?_ ?_
    · rw [flatMap_ite_singleton (fun s : spike => c.source = s.source)
        (fun s => (c.group_index, c.make_event s)) spks]
      have hfe : spks.filter (fun s => decide (s.source = c.source))
          = spks.filter (fun s => decide (c.source = s.source)) := by
        apply List.filter_congr
        intro s _
        exact decide_eq_decide.mpr eq_comm
      rw [hfe]
    · have : event_pairs_by_spike cs spks
          = spks.flatMap (fun s =>
              (cs.filter (fun c2 => decide (c2.source = s.source))).map
                (fun c2 => (c2.group_index, c2.make_event s))) := rfl
      rw [← this]
      exact ih spks

/-- The two merge directions agree as unfiltered push lists up to
permutation, on sorted inputs. -/
theorem enqueue_directions_perm (cons : List connection) (spks : List spike)
    (hc : List.Pairwise conn_src_le cons)
    (hs : List.Pairwise spike_src_le spks) :
    List.Perm (enqueue_by_conn cons spks) (enqueue_by_spike cons spks) := by
  rw [enqueue_by_conn_eq cons spks hc hs, enqueue_by_spike_eq spks cons hc hs]
  exact event_pairs_exchange cons spks

/-- C3 -- For every source-sorted connection partition and source-sorted
spike slice, the two merge directions inside `make_event_queues` (iterate
connections with equal_range over spikes, versus iterate spikes with
equal_range over connections) produce, for each local cell group, the same
multiset of events. -/
theorem merge_directions_same_multiset
    (cons : List connection) (spks : List spike)
    (hc : List.Pairwise conn_src_le cons)
    (hs : List.Pairwise spike_src_le spks) (g : Nat) :
    (↑(group_filter g (enqueue_by_conn cons spks)) :
        Multiset postsynaptic_spike_event)
      = ↑(group_filter g (enqueue_by_spike cons spks)) :=
  Multiset.coe_eq_coe.mpr
    ((enqueue_directions_perm cons spks hc hs).filterMap _)

/-- Witness for C3 at a concrete input: one connection, two spikes from the
same source. -/
theorem merge_directions_same_multiset_witness :
    List.Pairwise conn_src_le [connection.mk ⟨0,0⟩ ⟨1,2⟩ 1 2 0] ∧
    List.Pairwise spike_src_le [⟨⟨0,0⟩, 1⟩, ⟨⟨0,0⟩, 3⟩] ∧
    (↑(group_filter 0 (enqueue_by_conn [connection.mk ⟨0,0⟩ ⟨1,2⟩ 1 2 0]
          [⟨⟨0,0⟩, 1⟩, ⟨⟨0,0⟩, 3⟩])) :
        Multiset postsynaptic_spike_event)
      = ↑(group_filter 0 (enqueue_by_spike [connection.mk ⟨0,0⟩ ⟨1,2⟩ 1 2 0]
          [⟨⟨0,0⟩, 1⟩, ⟨⟨0,0⟩, 3⟩])) :=
  ⟨by decide, by decide,
    merge_directions_same_multiset [connection.mk ⟨0,0⟩ ⟨1,2⟩ 1 2 0]
      [⟨⟨0,0⟩, 1⟩, ⟨⟨0,0⟩, 3⟩] (by decide) (by decide) 0⟩

/-- C2 -- On source-sorted per-domain slices, `make_event_queues` returns one
queue per local cell group, and queue g holds exactly one event
(destination, spike.time + delay, weight) for every matching
(connection, spike) pair with group index g, over all domains, and nothing
else (stated as multiset equality with the pair enumeration). -/
theorem make_event_queues_exact
    (G D : Nat) (conns : List connection) (cp : List Nat)
    (gs : gathered_vector)
    (hc : ∀ dom, dom < D → List.Pairwise conn_src_le (conn_slice conns cp dom))
    (hs : ∀ dom, dom < D → List.Pairwise spike_src_le (spike_slice gs dom))
    (g : Nat) (hg : g < G) :
    (↑((make_event_queues G D conns cp gs).getD g []) :
        Multiset postsynaptic_spike_event)
      = ↑(group_filter g (all_event_pairs D conns cp gs)) := by
  have hlen : g < (make_event_queues G D conns cp gs).length := by
    simpa [make_event_queues] using hg
  rw [List.getD_eq_getElem _ _ hlen]
  have hval : (make_event_queues G D conns cp gs)[g]
      = group_filter g ((List.range D).flatMap (domain_pushes conns cp gs)) := by
    simp [make_event_queues]
  rw [hval]
  refine Multiset.coe_eq_coe.mpr (List.Perm.filterMap _ ?_)
  unfold all_event_pairs
  apply flatMap_perm_congr
  intro dom hdom
  have hdomD : dom < D := List.mem_range.mp hdom
  unfold domain_pushes
  by_cases hbr : (conn_slice conns cp dom).length < (spike_slice gs dom).length
  · rw [if_pos hbr,
      enqueue_by_conn_eq _ _ (hc dom hdomD) (hs dom hdomD)]
  · rw [if_neg hbr,
      enqueue_by_spike_eq _ _ (hc dom hdomD) (hs dom hdomD)]
    exact (event_pairs_exchange _ _).symm

/-- Witness for C2 at a concrete input: one domain, two connections sharing a
source, one matching spike. -/
theorem make_event_queues_exact_witness :
    (∀ dom, dom < 1 → List.Pairwise conn_src_le
      (conn_slice [connection.mk ⟨0,0⟩ ⟨1,2⟩ 1 2 0,
        connection.mk ⟨0,0⟩ ⟨2,5⟩ 3 4 0] [0,2] dom)) ∧
    (∀ dom, dom < 1 → List.Pairwise spike_src_le
      (spike_slice ⟨[⟨⟨0,0⟩, 1⟩], [0,1]⟩ dom)) ∧
    (↑((make_event_queues 1 1 [connection.mk ⟨0,0⟩ ⟨1,2⟩ 1 2 0,
          connection.mk ⟨0,0⟩ ⟨2,5⟩ 3 4 0] [0,2]
          ⟨[⟨⟨0,0⟩, 1⟩], [0,1]⟩).getD 0 []) :
        Multiset postsynaptic_spike_event)
      = ↑(group_filter 0 (all_event_pairs 1 [connection.mk ⟨0,0⟩ ⟨1,2⟩ 1 2 0,
          connection.mk ⟨0,0⟩ ⟨2,5⟩ 3 4 0] [0,2] ⟨[⟨⟨0,0⟩, 1⟩], [0,1]⟩)) :=
  ⟨by decide, by decide,
    make_event_queues_exact 1 1
      [connection.mk ⟨0,0⟩ ⟨1,2⟩ 1 2 0, connection.mk ⟨0,0⟩ ⟨2,5⟩ 3 4 0]
      [0,2] ⟨[⟨⟨0,0⟩, 1⟩], [0,1]⟩ (by decide) (by decide) 0 (by decide)⟩

theorem subrange_append_shift {α : Type} (xs ys : List α) (a b : Nat) :
    subrange (xs ++ ys) (xs.length + a) (xs.length + b) = subrange ys a b := by
  unfold subrange
  rw [List.take_append, List.drop_append]

theorem subrange_first_block {α : Type} (xs ys : List α) :
    subrange (xs ++ ys) 0 xs.length = xs := by
  unfold subrange
  rw [List.drop_zero, List.take_left]

theorem subrange_flatMap_blocks {α : Type} (L : Nat) :
    ∀ (N : Nat) (f : Nat → List α), (∀ j, (f j).length = L) →
      ∀ i, i < N →
      subrange ((List.range N).flatMap f) (i * L) ((i+1) * L) = f i := by
  intro N
  induction N with
  | zero =>
    intro f _ i hi
    exact absurd hi (Nat.not_lt_zero i)
  | succ n ih =>
    intro f hf i hi
    rw [List.range_succ_eq_map, List.flatMap_cons, List.flatMap_map]
    cases i with
    | zero =>
      have e0 : (0+1) * L = 0 + (f 0).length := by rw [hf 0]; ring
      have e1 : 0 * L = (0:Nat) := by ring
      rw [e0, e1]
      simpa using subrange_first_block (f 0) ((List.range n).flatMap (f ∘ Nat.succ))
    | succ j =>
      have e1 : (j+1) * L = (f 0).length + j * L := by rw [hf 0]; ring
      have e2 : (j+1+1) * L = (f 0).length + (j+1) * L := by rw [hf 0]; ring
      rw [e1, e2, subrange_append_shift]
      exact ih (f ∘ Nat.succ) (fun k => hf (k+1)) j (by omega)

/-- C6 -- For a dry-run transport with N ranks and a cells-per-tile count,
`dry_run_context_impl::gather_spikes` on a local spike vector of length L
returns a partition with entry r equal to r*L and a gathered vector whose
slice i is the local spikes with source GIDs shifted by cells_per_tile * i.
The sibling implementation `dryrun_global_policy::gather_spikes` violates
this: at the failing input it returns the partition [0, 0, 0] (never filled)
instead of [0, L, 2L]. -/
theorem gather_spikes_dry_run (N cpt : Nat) (local_spikes : List spike) :
    (∀ r, r ≤ N → (gather_spikes N cpt local_spikes).partition.getD r 0
        = r * local_spikes.length) ∧
    (∀ i, i < N → subrange (gather_spikes N cpt local_spikes).values
        (i * local_spikes.length) ((i+1) * local_spikes.length)
      = local_spikes.map (fun s =>
          { s with source := { s.source with
              gid := s.source.gid + cpt * i } })) ∧
    (dryrun_policy_gather_spikes 2 4 [⟨⟨1,0⟩, 1⟩]).partition = [0, 0, 0] := by
  refine ⟨?_, ?_, by decide⟩
  · intro r hr
    have hlen : r < ((List.range (N+1)).map
        (fun i => i * local_spikes.length)).length := by
      simp
      omega
    rw [show (gather_spikes N cpt local_spikes).partition
        = (List.range (N+1)).map (fun i => i * local_spikes.length) from rfl]
    rw [List.getD_eq_getElem _ _ hlen]
    simp
  · intro i hi
    exact subrange_flatMap_blocks local_spikes.length N _
      (fun j => by simp) i hi

/-- Witness for C6 at a concrete input: three ranks, tile size four, one
local spike from GID 1. -/
theorem gather_spikes_dry_run_witness :
    (gather_spikes 3 4 [⟨⟨1,0⟩, 1⟩]).partition.getD 2 0 = 2 * 1 ∧
    subrange (gather_spikes 3 4 [⟨⟨1,0⟩, 1⟩]).values (1 * 1) ((1+1) * 1)
      = [spike.mk ⟨1,0⟩ 1].map (fun s =>
          { s with source := { s.source with gid := s.source.gid + 4 * 1 } }) :=
  ⟨(gather_spikes_dry_run 3 4 [⟨⟨1,0⟩, 1⟩]).1 2 (by decide),
   (gather_spikes_dry_run 3 4 [⟨⟨1,0⟩, 1⟩]).2.1 1 (by decide)⟩

theorem gid_part_succ (N D d : Nat) :
    gid_part N D (d+1) = gid_part N D d + dom_size N D d := by
  unfold gid_part
  rw [List.range_succ, List.map_append, List.sum_append]
  simp

theorem gid_part_closed (N D : Nat) :
    ∀ d, gid_part N D d
      = d * (N / D) + min d (N - D * (N / D)) := by
  intro d
  induction d with
  | zero => simp [gid_part]
  | succ d ih =>
    rw [gid_part_succ, ih]
    unfold dom_size
    by_cases h : d < N - D * (N / D)
    · rw [if_pos h]
      rw [Nat.min_eq_left (le_of_lt h), Nat.min_eq_left h]
      rw [Nat.add_mul, Nat.one_mul]
      omega
    · rw [if_neg h]
      rw [Nat.min_eq_right (by omega), Nat.min_eq_right (by omega)]
      rw [Nat.add_mul, Nat.one_mul]
      omega

theorem gid_part_total (N D : Nat) (hD : 0 < D) : gid_part N D D = N := by
  rw [gid_part_closed]
  set q := N / D with hq
  have h1 : D * q + N % D = N := Nat.div_add_mod N D
  have hrD : N % D < D := Nat.mod_lt _ hD
  have hmod : N - D * q = N % D := by omega
  rw [hmod, Nat.min_eq_right (le_of_lt hrD)]
  exact h1

theorem dom_size_floor_or_ceil (N D : Nat) (hD : 0 < D) (d : Nat) :
    dom_size N D d = N / D ∨ dom_size N D d = (N + D - 1) / D := by
  unfold dom_size
  set q := N / D with hq
  have h1 : D * q + N % D = N := Nat.div_add_mod N D
  have hrD : N % D < D := Nat.mod_lt _ hD
  by_cases h : d < N - D * q
  · right
    rw [if_pos h]
    have hpos : 0 < N % D := by omega
    have hx : D * (q + 1) = D * q + D := by ring
    have hceil : (N + D - 1) / D = q + 1 := by
      have key : N + D - 1 = D * (q + 1) + (N % D - 1) := by omega
      rw [key, Nat.mul_add_div hD,
        Nat.div_eq_of_lt (show N % D - 1 < D by omega)]
    omega
  · left
    rw [if_neg h]
    rfl

theorem ceil_div_eq_succ (N D : Nat) (hD : 0 < D) (h : 0 < N % D) :
    (N + D - 1) / D = N / D + 1 := by
  set q := N / D with hq
  have h1 : D * q + N % D = N := Nat.div_add_mod N D
  have hrD : N % D < D := Nat.mod_lt _ hD
  have hx : D * (q + 1) = D * q + D := by ring
  have key : N + D - 1 = D * (q + 1) + (N % D - 1) := by omega
  rw [key, Nat.mul_add_div hD, Nat.div_eq_of_lt (show N % D - 1 < D by omega)]

theorem first_cell_succ (N D : Nat) (hD : 0 < D) (d : Nat) :
    first_cell N D (d+1) = first_cell N D d + N / D +
      if D ≤ (N * d) % D + N % D then 1 else 0 := by
  unfold first_cell
  have hmul : N * (d+1) = N * d + N := by ring
  rw [hmul, Nat.add_div hD]

theorem first_cell_block_sizes (N D : Nat) (hD : 0 < D) (d : Nat) :
    first_cell N D (d+1) - first_cell N D d = N / D ∨
    first_cell N D (d+1) - first_cell N D d = (N + D - 1) / D := by
  rw [first_cell_succ N D hD d]
  by_cases h : D ≤ (N * d) % D + N % D
  · rw [if_pos h]
    right
    have hN : 0 < N % D := by
      by_contra h0
      have hz : N % D = 0 := by omega
      obtain ⟨k, rfl⟩ : D ∣ N := Nat.dvd_of_mod_eq_zero hz
      have hzd : (D * k * d) % D = 0 := by
        rw [Nat.mul_assoc]
        exact Nat.mul_mod_right D (k * d)
      omega
    rw [ceil_div_eq_succ N D hD hN]
    rw [Nat.add_assoc, Nat.add_sub_cancel_left]
  · rw [if_neg h]
    left
    rw [Nat.add_zero, Nat.add_sub_cancel_left]

theorem first_cell_total (N D : Nat) (hD : 0 < D) : first_cell N D D = N := by
  unfold first_cell
  exact Nat.mul_div_cancel N hD

theorem gid_part_mono (N D : Nat) :
    ∀ d1 d2, d1 ≤ d2 → gid_part N D d1 ≤ gid_part N D d2 := by
  intro d1 d2 h
  induction d2 with
  | zero =>
    have h0 : d1 = 0 := Nat.le_zero.mp h
    rw [h0]
  | succ n ih =>
    rcases Nat.lt_or_ge d1 (n+1) with h1 | h1
    · have h2 := ih (by omega)
      rw [gid_part_succ]
      omega
    · have h2 : d1 = n+1 := by omega
      rw [h2]

/-- C7 -- For every total cell count N and rank count R > 0, the
domain-decomposition block rules give every rank either ⌊N/R⌋ or ⌈N/R⌉
cells, the block sizes sum to N, and every GID lies in exactly one rank's
half-open block of the prefix-sum partition; this holds both for the
`dom_size` rule of `partition_load_balance` and for the older
`domain_decomposition::first_cell` rule. -/
theorem partition_load_balance_blocks (N D : Nat) (hD : 0 < D) :
    (∀ d, d < D → dom_size N D d = N / D ∨ dom_size N D d = (N + D - 1) / D) ∧
    gid_part N D D = N ∧
    (∀ g, g < N →
      ∃! d, d < D ∧ gid_part N D d ≤ g ∧ g < gid_part N D (d+1)) ∧
    (∀ d, d < D → first_cell N D (d+1) - first_cell N D d = N / D ∨
      first_cell N D (d+1) - first_cell N D d = (N + D - 1) / D) ∧
    first_cell N D D = N := by
  refine ⟨fun d _ => dom_size_floor_or_ceil N D hD d,
    gid_part_total N D hD, ?_, fun d _ => first_cell_block_sizes N D hD d,
    first_cell_total N D hD⟩
  intro g hg
  have hP0 : gid_part N D 0 ≤ g := by
    simp [gid_part]
  have hPD : ¬ gid_part N D D ≤ g := by
    rw [gid_part_total N D hD]
    omega
  have hspec : ∀ (p : Nat → Prop), ∀ _ : DecidablePred p, p 0 →
      p (Nat.findGreatest p D) := by
    intro p inst hp0
    exact Nat.findGreatest_spec (Nat.zero_le D) hp0
  have hgreat : ∀ (p : Nat → Prop), ∀ _ : DecidablePred p, ∀ k : Nat,
      Nat.findGreatest p D < k → k ≤ D → ¬ p k := by
    intro p inst k h1 h2
    exact Nat.findGreatest_is_greatest h1 h2
  have hd0P : gid_part N D (Nat.findGreatest (fun d => gid_part N D d ≤ g) D)
      ≤ g :=
    hspec (fun d => gid_part N D d ≤ g) (by infer_instance) hP0
  have hd0le : Nat.findGreatest (fun d => gid_part N D d ≤ g) D ≤ D :=
    Nat.findGreatest_le D
  have hd0lt : Nat.findGreatest (fun d => gid_part N D d ≤ g) D < D := by
    rcases eq_or_lt_of_le hd0le with heq | h
    · rw [heq] at hd0P
      exact absurd hd0P hPD
    · exact h
  have hnext : ¬ gid_part N D
      ((Nat.findGreatest (fun d => gid_part N D d ≤ g) D) + 1) ≤ g :=
    hgreat (fun d => gid_part N D d ≤ g) (by infer_instance) _
      (Nat.lt_succ_self _) (by omega)
  refine ⟨Nat.findGreatest (fun d => gid_part N D d ≤ g) D,
    ⟨hd0lt, hd0P, by omega⟩, ?_⟩
  intro d2 hq
  obtain ⟨hd2D, hd2le, hd2lt⟩ := hq
  by_contra hne
  rcases Nat.lt_or_ge d2 (Nat.findGreatest (fun d => gid_part N D d ≤ g) D)
    with hlt | hge
  · have hmono : gid_part N D (d2+1)
        ≤ gid_part N D (Nat.findGreatest (fun d => gid_part N D d ≤ g) D) :=
      gid_part_mono N D _ _ (by omega)
    omega
  · have hgt : Nat.findGreatest (fun d => gid_part N D d ≤ g) D < d2 := by
      omega
    have hmono : gid_part N D
        ((Nat.findGreatest (fun d => gid_part N D d ≤ g) D) + 1)
        ≤ gid_part N D d2 := gid_part_mono N D _ _ (by omega)
    omega

/-- Witness for C7 at a concrete input: ten cells over four ranks. -/
theorem partition_load_balance_blocks_witness :
    0 < 4 ∧ gid_part 10 4 4 = 10 :=
  ⟨by decide, (partition_load_balance_blocks 10 4 (by decide)).2.1⟩

theorem headD_mem {α : Type} (l : List α) (d : α) (h : l ≠ []) :
    l.headD d ∈ l := by
  cases l with
  | nil => exact absurd rfl h
  | cons a l => exact List.mem_cons_self a l

/-- C8 -- The domain-decomposition construction succeeds (does not throw)
exactly when every gap-junction component is homogeneous in cell kind; if two
cells in one component have different kinds it fails with an error. -/
theorem check_gj_kinds_ok_iff (super_cells : List (List Nat))
    (kind_of : Nat → Nat) (hne : ∀ cg ∈ super_cells, cg ≠ []) :
    check_gj_kinds super_cells kind_of = Except.ok () ↔
      ∀ cg ∈ super_cells, ∀ a ∈ cg, ∀ b ∈ cg, kind_of a = kind_of b := by
  unfold check_gj_kinds
  by_cases h : super_cells.any (fun cg =>
      cg.any (fun gid => decide (kind_of gid ≠ kind_of (cg.headD 0))))
  · rw [if_pos h]
    constructor
    · intro habs
      exact absurd habs (by simp)
    · intro hall
      exfalso
      obtain ⟨cg, hcg, h2⟩ := List.any_eq_true.mp h
      obtain ⟨gid, hgid, h3⟩ := List.any_eq_true.mp h2
      simp only [decide_eq_true_eq] at h3
      exact h3 (hall cg hcg gid hgid (cg.headD 0)
        (headD_mem cg 0 (hne cg hcg)))
  · rw [if_neg h]
    have hall : ∀ cg ∈ super_cells, ∀ gid ∈ cg,
        kind_of gid = kind_of (cg.headD 0) := by
      intro cg hcg gid hgid
      by_contra hne2
      exact h (List.any_eq_true.mpr
        ⟨cg, hcg, List.any_eq_true.mpr ⟨gid, hgid, by simpa using hne2⟩⟩)
    constructor
    · intro _ cg hcg a ha b hb
      rw [hall cg hcg a ha, hall cg hcg b hb]
    · intro _
      rfl

/-- Witness for C8 at a concrete input: one homogeneous two-cell component. -/
theorem check_gj_kinds_ok_iff_witness :
    (∀ cg ∈ [[0, 1]], cg ≠ ([] : List Nat)) ∧
    (check_gj_kinds [[0, 1]] (fun _ => 0) = Except.ok () ↔
      ∀ cg ∈ [[0, 1]], ∀ a ∈ cg, ∀ b ∈ cg, (fun _ => 0) a = (fun _ => 0) b) :=
  ⟨by decide, check_gj_kinds_ok_iff [[0, 1]] (fun _ => 0) (by decide)⟩

theorem run_exchanges_shift (gather : List spike → gathered_vector) :
    ∀ (ls : List (List spike)) (st : Nat),
      run_exchanges gather st ls = st + run_exchanges gather 0 ls := by
  intro ls
  induction ls with
  | nil => intro st; simp [run_exchanges]
  | cons l ls ih =>
    intro st
    rw [run_exchanges, run_exchanges]
    rw [ih, ih ((communicator_exchange gather 0 l).2)]
    unfold communicator_exchange exchange_tally
    omega

/-- C9 -- The spike counter is monotone: each exchange adds exactly the size
of the gathered global spike vector, nothing else modifies it during a run,
at the end of a run it equals the cumulative gathered spike count over all
epochs, and `reset()` returns it to zero. -/
theorem num_spikes_monotone_cumulative
    (gather : List spike → gathered_vector) :
    (∀ st l, (communicator_exchange gather st l).2
        = st + (gather (sort_spikes l)).values.length) ∧
    (∀ st l, st ≤ (communicator_exchange gather st l).2) ∧
    (∀ ls st, st ≤ run_exchanges gather st ls) ∧
    (∀ ls, run_exchanges gather 0 ls
        = (ls.map (fun l => (gather (sort_spikes l)).values.length)).sum) ∧
    communicator_reset = 0 := by
  refine ⟨fun st l => rfl, fun st l => Nat.le_add_right st _, ?_, ?_, rfl⟩
  · intro ls st
    rw [run_exchanges_shift gather ls st]
    omega
  · intro ls
    induction ls with
    | nil => rfl
    | cons l ls ih =>
      rw [run_exchanges, run_exchanges_shift gather ls, ih, List.map_cons,
        List.sum_cons]
      unfold communicator_exchange exchange_tally
      omega

theorem run_epochs_done (fuel : Nat) (t t_interval t_final : ℚ)
    (h : ¬ t < t_final) : run_epochs fuel t t_interval t_final = [] := by
  cases fuel with
  | zero => rfl
  | succ n =>
    unfold run_epochs
    rw [if_neg h]

theorem run_epochs_step (fuel : Nat) (t t_interval t_final : ℚ)
    (h : t < t_final) :
    run_epochs (fuel+1) t t_interval t_final
      = (t, min (t + t_interval) t_final) ::
          run_epochs fuel (min (t + t_interval) t_final) t_interval t_final := by
  show (if t < t_final then
      (t, min (t + t_interval) t_final) ::
        run_epochs fuel (min (t + t_interval) t_final) t_interval t_final
    else []) = _
  rw [if_pos h]

/-- C10 (counterexample) -- The epoch interval `min_delay()/2` does not
exceed every finite final time: with no connections the interval is
time_max/2, and running to the finite t_final = time_max the loop of
`model::run` performs two epochs, [0, time_max/2] and
[time_max/2, time_max], not one (fuel 3 shows the loop stopped by its
condition, not by fuel exhaustion). -/
theorem min_delay_no_conn_two_epochs_beyond_half :
    min_delay [] = time_max ∧
    run_epochs 3 0 (min_delay [] / 2) time_max
      = [(0, time_max / 2), (time_max / 2, time_max)] := by
  constructor
  · rfl
  · have h1 : min_delay [] = time_max := rfl
    rw [h1]
    have hm1 : min ((0:ℚ) + time_max / 2) time_max = time_max / 2 := by
      rw [zero_add]
      exact min_eq_left (by norm_num [time_max])
    have hm2 : min (time_max / 2 + time_max / 2) time_max = time_max := by
      rw [show time_max / 2 + time_max / 2 = time_max by ring]
      exact min_self time_max
    rw [show (3:Nat) = 2+1 from rfl]
    rw [run_epochs_step 2 0 (time_max / 2) time_max
      (by norm_num [time_max])]
    rw [hm1]
    rw [show (2:Nat) = 1+1 from rfl]
    rw [run_epochs_step 1 (time_max / 2) (time_max / 2) time_max
      (by norm_num [time_max])]
    rw [hm2]
    rw [run_epochs_done 1 time_max (time_max / 2) time_max
      (lt_irrefl time_max)]

/-- C10 (amended) -- With no local connections, `communicator::min_delay()`
is the fold of `min` over an empty list, i.e.
`numeric_limits<time_type>::max()` (returned unchanged by the single-rank
transport reduction), and for any final time in (0, time_max/2] (which
covers every practical t_final; a larger finite t_final takes more than one
epoch, see `min_delay_no_conn_two_epochs_beyond_half`) the run loop performs
exactly one epoch spanning [0, t_final]. -/
theorem min_delay_no_connections_single_epoch
    (t_final : ℚ) (fuel : Nat) (h0 : 0 < t_final)
    (hT : t_final ≤ time_max / 2) (hf : 1 ≤ fuel) :
    min_delay [] = time_max ∧
    run_epochs fuel 0 (min_delay [] / 2) t_final = [(0, t_final)] := by
  refine ⟨rfl, ?_⟩
  obtain ⟨m, rfl⟩ : ∃ m, fuel = m + 1 := ⟨fuel - 1, by omega⟩
  unfold run_epochs
  rw [if_pos h0]
  have hmin : min (0 + min_delay [] / 2) t_final = t_final := by
    apply min_eq_right
    rw [zero_add]
    exact hT
  rw [hmin, run_epochs_done m t_final _ t_final (lt_irrefl t_final)]

/-- Witness for C10 at a concrete input: t_final = 10, one unit of fuel. -/
theorem min_delay_no_connections_single_epoch_witness :
    (0:ℚ) < 10 ∧ (10:ℚ) ≤ time_max / 2 ∧ 1 ≤ 1 ∧
    (min_delay [] = time_max ∧
      run_epochs 1 0 (min_delay [] / 2) 10 = [(0, 10)]) :=
  ⟨by norm_num, by norm_num [time_max], by norm_num,
    min_delay_no_connections_single_epoch 10 1 (by norm_num)
      (by norm_num [time_max]) (by norm_num)⟩

end NestMC
